import Mathlib

/-!
A verification development for the `rsinc` two-way synchroniser
(`src/sinc.py`, `src/rsinc/__main__.py`).

Modelling conventions (shallow embedding):

* A `FileState` mirrors the per-file record `{bytesize, datetime}` built by
  `lsl` (size in bytes as `Nat`, modification time in epoch seconds as `Int`).
* A flat listing (`d_old`, `d_tmp` in `data`) is a `Snap`: a function from
  path keys to `Option FileState`.  `sinc.py` only ever queries a listing by
  key or iterates its key set, so the function view is an exact quotient of
  the Python dict.
* Paths handled by the packed-tree functions (`pack`, `unpack`, `merge`,
  `get_branch`, `have`, `get_min`) are first split on `'/'` by the Python
  helpers and rejoined with `'/'.join`; since `split('/')` and `'/'.join`
  are mutually inverse between strings and nonempty lists of slash-free
  segments, those functions are embedded at the segment-list level
  (`List String`), matching what the recursive workers actually receive.
* Python's mutating `dict.update` on the nested tree is embedded as
  replace-first-or-append on association lists, which preserves lookup
  semantics exactly.
* The change classes are the integers the code stores in `d_dif`:
  `0 = Unchanged, 1 = Modified, 2 = Deleted, 3 = Created`.
-/

/-- The per-file record produced by `lsl` (`sinc.py` lines 141-164):
size in bytes and the parsed modification time as an integer. -/
structure FileState where
  bytesize : Nat
  datetime : Int
deriving DecidableEq

/-- A flat listing (a Python dict path -> file record), viewed as a
function from keys to optional records. -/
def Snap := String → Option FileState

/-- `data.build_dif` (`sinc.py` lines 66-90), per key: keys of `tmp` not in
`old` are Created (3); keys of `old` not in `tmp` are Deleted (2); keys in
both are Modified (1) when the byte sizes differ or the current time is
strictly newer, else Unchanged (0).  Keys in neither listing get no class. -/
def build_dif (old tmp : Snap) (k : String) : Option Nat :=
  match old k, tmp k with
  | none, none => none
  | none, some _ => some 3
  | some _, none => some 2
  | some o, some t =>
      if t.bytesize ≠ o.bytesize then some 1
      else if o.datetime < t.datetime then some 1
      else some 0

/-- `s_dif = set(self.d_dif)` (`sinc.py` line 90): the key set of the
classification map handed to the reconciler's partition step. -/
def s_dif (old tmp : Snap) (k : String) : Bool :=
  (build_dif old tmp k).isSome

/-- The baseline selection of the main loop (`sinc.py` lines 483-495):
on a first run each side's baseline is set to its own fresh listing
(`f.lcl.d_old = f.lcl.d_tmp`; `f.rmt.d_old = f.rmt.d_tmp`); otherwise both
sides receive the same unpacked persisted state (`old`). -/
def baselines (first_run : Bool) (old lclTmp rmtTmp : Snap) : Snap × Snap :=
  if first_run then (lclTmp, rmtTmp) else (old, old)

/-- The six file operations the reconciler can invoke: `cpyR` (Push),
`cpyL` (Pull), `delL`, `delR`, `conflict`, and `null` (no-op entry of the
table). -/
inductive Act where
  | Push
  | Pull
  | DeleteLocal
  | DeleteRemote
  | Conflict
  | NoOp
deriving DecidableEq

/-- The `LOGIC` table (`sinc.py` lines 409-412) with its callable entries
named by the operation they perform: `null = NoOp`, `cpyL = Pull`,
`delL = DeleteLocal`, `cpyR = Push`, `delR = DeleteRemote`,
`conflict = Conflict`.  Rows are indexed by the local class, columns by
the remote class. -/
def LOGIC : List (List Act) :=
  [[Act.NoOp, Act.Pull, Act.DeleteLocal, Act.Conflict],
   [Act.Push, Act.Conflict, Act.Push, Act.Conflict],
   [Act.DeleteRemote, Act.Pull, Act.NoOp, Act.Pull],
   [Act.Conflict, Act.Conflict, Act.Push, Act.Conflict]]

/-- `LOGIC[l][r]`, with `none` standing for the IndexError of an
out-of-range subscript (unreachable for classes produced by `build_dif`). -/
def logicAt (l r : Nat) : Option Act :=
  (LOGIC.get? l).bind fun row => row.get? r

/-- The actions `sync` emits for one key of `inter` (`sinc.py` lines
357-368), given the two sides' current records (`d_tmp`) and classes
(`d_dif`) for that key.  The whole block is guarded by `if recover:`.
Inside it, the raw size/time comparison loop runs first; the `else:` on
line 365 is attached to that `for` loop (a Python for-else), and the loop
has no `break`, so the `LOGIC` dispatch loop then always runs as well.
When `recover` is false nothing in the block executes. -/
def interKeyActs (recover : Bool) (lclTmp rmtTmp : FileState)
    (lclDif rmtDif : Nat) : List Act :=
  if recover then
    (if lclTmp.bytesize ≠ rmtTmp.bytesize then
        if rmtTmp.datetime < lclTmp.datetime then [Act.Push]
        else if lclTmp.datetime < rmtTmp.datetime then [Act.Pull]
        else []
      else [])
    ++ (match logicAt lclDif rmtDif with
        | some a => [a]
        | none => [])
  else []

/-- The action `sync` emits for one key of `lcl_dif` (in local diff set
only, `sinc.py` lines 341-347): skip entirely when the class is Deleted
(2); otherwise push, unless case-insensitive mode finds the lowercased key
among the remote side's lowercased listing, in which case an error is
printed and no file operation happens. -/
def oneSidedPush (caseIns : Bool) (dif : Nat) (rmtLow : String → Bool)
    (key : String) : Option Act :=
  if dif ≠ 2 then
    if caseIns && rmtLow key.toLower then none
    else some Act.Push
  else none

/-- The action `sync` emits for one key of `rmt_dif` (in remote diff set
only, `sinc.py` lines 349-355), symmetric to `oneSidedPush`. -/
def oneSidedPull (caseIns : Bool) (dif : Nat) (lclLow : String → Bool)
    (key : String) : Option Act :=
  if dif ≠ 2 then
    if caseIns && lclLow key.toLower then none
    else some Act.Pull
  else none

/-- The live-pass gate of `rsinc/__main__.py` lines 304-310: the live pass
runs when the dry-run flag is off, the confirmation condition
`auto or total == 0 or strtobool(input(...))` holds (`answer` stands for
the operator's parsed reply), and the inner guard `total != 0 or recover`
holds. -/
def livePassRuns (dry auto : Bool) (total : Nat) (answer recover : Bool) : Bool :=
  !dry && (auto || total == 0 || answer) && (total != 0 || recover)

/-- A Python runtime value as far as the dry-run report needs: an int or a
str. -/
inductive PyVal where
  | int (n : Int)
  | str (s : String)
deriving DecidableEq

/-- Python `+` on such values: int+int adds, str+str concatenates, a mixed
pair raises TypeError. -/
def pyAdd : PyVal → PyVal → Except String PyVal
  | PyVal.int a, PyVal.int b => Except.ok (PyVal.int (a + b))
  | PyVal.str a, PyVal.str b => Except.ok (PyVal.str (a ++ b))
  | _, _ => Except.error "TypeError"

/-- The dry-run report expression of `sinc.py` line 516,
`total_jobs + 'jobs'`, evaluated before `print` can run.  `total_jobs` is
always an int (it is assigned from the job counter). -/
def dryReport (total_jobs : Int) : Except String PyVal :=
  pyAdd (PyVal.int total_jobs) (PyVal.str "jobs")

/-! ### The packed baseline tree (`master.json` structure) -/

/-- Replace-or-append update on an association list: the semantics of a
Python `dict` subscript assignment / `dict.update` with one key. -/
def updA {α β : Type} [DecidableEq α] : List (α × β) → α → β → List (α × β)
  | [], k, v => [(k, v)]
  | (n, w) :: r, k, v =>
      if n = k then (n, v) :: r else (n, w) :: updA r k v

/-- Association-list lookup: the semantics of a Python `dict` subscript
read (`none` standing for KeyError) or `in` test. -/
def lookupA {α β : Type} [DecidableEq α] : List (α × β) → α → Option β
  | [], _ => none
  | (n, w) :: r, k => if n = k then some w else lookupA r k

mutual
/-- A packed dict (`sinc.py` `empty()` and friends): a node holding a
folder map (name to child node) and a file map (name to file record). -/
inductive Nest where
  | mk (fold : FoldList) (file : List (String × FileState))
/-- The `'fold'` map of a node, as an association list of child nodes. -/
inductive FoldList where
  | nil
  | cons (name : String) (child : Nest) (rest : FoldList)
end

/-- `empty()` (`sinc.py` lines 170-172). -/
def emptyNest : Nest := Nest.mk FoldList.nil []

/-- Lookup in a `'fold'` map. -/
def FoldList.lookup : FoldList → String → Option Nest
  | FoldList.nil, _ => none
  | FoldList.cons n c r, k => if n = k then some c else FoldList.lookup r k

/-- Replace-or-append update in a `'fold'` map
(`nest['fold'].update({k: v})`). -/
def FoldList.update : FoldList → String → Nest → FoldList
  | FoldList.nil, k, v => FoldList.cons k v FoldList.nil
  | FoldList.cons n c r, k, v =>
      if n = k then FoldList.cons n v r
      else FoldList.cons n c (FoldList.update r k v)

/-- The names of a `'fold'` map, in order. -/
def FoldList.names : FoldList → List String
  | FoldList.nil => []
  | FoldList.cons n _ r => n :: FoldList.names r

/-- `insert(nest, chain)` (`sinc.py` lines 175-182) with the chain's final
element (the file record) passed separately: one segment left means a file
entry; otherwise descend into the named folder, creating it when absent. -/
def Nest.insert : Nest → List String → FileState → Nest
  | n, [], _ => n
  | Nest.mk fo fi, [name], v => Nest.mk fo (updA fi name v)
  | Nest.mk fo fi, name :: b :: rest, v =>
      Nest.mk
        (fo.update name
          (Nest.insert ((FoldList.lookup fo name).getD emptyNest) (b :: rest) v))
        fi

/-- A flat dict keyed by already-split paths (segment lists). -/
abbrev FlatC := List (List String × FileState)

/-- `pack(d)` (`sinc.py` lines 185-192): fold `insert` over the flat
dict's entries, starting from an empty node. -/
def pack (l : FlatC) : Nest :=
  l.foldl (fun n kv => Nest.insert n kv.1 kv.2) emptyNest

/-- The file-map half of one `unpack` call (`sinc.py` lines 197-198):
`d.update({path + k: v})` for each file entry. -/
def foldFiles (fi : List (String × FileState)) (acc : FlatC)
    (path : List String) : FlatC :=
  fi.foldl (fun a kv => updA a (path ++ [kv.1]) kv.2) acc

mutual
/-- `unpack(nest, d, path)` (`sinc.py` lines 195-203): record the file
entries under `path`, then recurse into each folder (the Python
`d.update(unpack(v, d, ...))` mutates and returns the same dict, i.e.
sequentially threads the accumulator). -/
def Nest.unpack : Nest → FlatC → List String → FlatC
  | Nest.mk fo fi, d, path => FoldList.unpackF fo (foldFiles fi d path) path
/-- The folder half of `unpack`: thread the accumulator left-to-right
through the children. -/
def FoldList.unpackF : FoldList → FlatC → List String → FlatC
  | FoldList.nil, d, _ => d
  | FoldList.cons k v rest, d, path =>
      FoldList.unpackF rest (Nest.unpack v d (path ++ [k])) path
end

/-- `_merge(nest, chain, new)` (`sinc.py` lines 219-227): place `new` as
the folder node at the end of the chain, creating intermediate folder
nodes as needed. -/
def Nest.mergeAt : Nest → List String → Nest → Nest
  | n, [], _ => n
  | Nest.mk fo fi, [c], new => Nest.mk (fo.update c new) fi
  | Nest.mk fo fi, c :: b :: rest, new =>
      Nest.mk
        (fo.update c
          (Nest.mergeAt ((FoldList.lookup fo c).getD emptyNest) (b :: rest) new))
        fi

/-- `_get_branch(nest, chain)` (`sinc.py` lines 206-211); `none` stands
for the KeyError raised when a segment is missing. -/
def Nest.getBranch : Nest → List String → Option Nest
  | n, [] => some n
  | Nest.mk fo _, c :: rest =>
      match FoldList.lookup fo c with
      | some ch => Nest.getBranch ch rest
      | none => none

/-- `_have(nest, chain)` (`sinc.py` lines 235-243): whether the whole
chain is present as folder nodes. -/
def haveChain : Nest → List String → Bool
  | _, [] => false
  | Nest.mk fo _, [c] => (FoldList.lookup fo c).isSome
  | Nest.mk fo _, c :: b :: rest =>
      match FoldList.lookup fo c with
      | some ch => haveChain ch (b :: rest)
      | none => false

/-- Every component of the chain exists as a folder node along a chain
from the root (the property claimed of `get_min`'s result). -/
def presentChain : Nest → List String → Bool
  | _, [] => true
  | Nest.mk fo _, c :: rest =>
      match FoldList.lookup fo c with
      | some ch => presentChain ch rest
      | none => false

/-- `_get_min(nest, chain, min_chain)` (`sinc.py` lines 251-259): stop
with the accumulator when one segment remains or the head segment is not
a folder of the current node; otherwise append the SECOND segment and
descend along the first. -/
def getMinChain : Nest → List String → List String → List String
  | _, [], acc => acc
  | _, [_], acc => acc
  | Nest.mk fo _, c :: b :: rest, acc =>
      match FoldList.lookup fo c with
      | none => acc
      | some child => getMinChain child (b :: rest) (acc ++ [b])

/-- `get_min(master, path)` (`sinc.py` lines 262-266): seed the
accumulator with the first segment of the chain. -/
def get_min (master : Nest) (chain : List String) : List String :=
  getMinChain master chain (chain.take 1)

/-- Lookup of a full chain in a node: file record reached by following
the folder chain and ending at a file entry.  This is the semantic
content that `pack` stores and `unpack` reads back. -/
def Nest.find : Nest → List String → Option FileState
  | _, [] => none
  | Nest.mk _ fi, [name] => lookupA fi name
  | Nest.mk fo _, name :: b :: rest =>
      match FoldList.lookup fo name with
      | some c => Nest.find c (b :: rest)
      | none => none

/-- Chain lookup through a `'fold'` map: follow the head name into a
child, then `Nest.find` the rest. -/
def FoldList.findF : FoldList → List String → Option FileState
  | _, [] => none
  | fo, c :: s =>
      match FoldList.lookup fo c with
      | some ch => Nest.find ch s
      | none => none

mutual
/-- Well-formedness of a node: both maps have duplicate-free key lists
and all children are well-formed.  Every node built by `pack` satisfies
this. -/
def Nest.WF : Nest → Prop
  | Nest.mk fo fi => (fi.map Prod.fst).Nodup ∧ (FoldList.names fo).Nodup ∧ FoldList.allWF fo
/-- All children of a `'fold'` map are well-formed. -/
def FoldList.allWF : FoldList → Prop
  | FoldList.nil => True
  | FoldList.cons _ c r => Nest.WF c ∧ FoldList.allWF r
end

/-- `some s` exactly when the second list is the first followed by `s`:
the residue of a key under a path position during `unpack`. -/
def pathRest : List String → List String → Option (List String)
  | [], k => some k
  | _ :: _, [] => none
  | p :: ps, q :: qs => if p = q then pathRest ps qs else none

/-- A concrete one-file listing used in counterexamples and witnesses:
`{a: (size 10, time 100)}`. -/
def snapA : Snap := fun k => if k = "a" then some ⟨10, 100⟩ else none

/-- A concrete one-file listing: `{a: (size 20, time 150)}`. -/
def snapB : Snap := fun k => if k = "a" then some ⟨20, 150⟩ else none

/-- The empty listing. -/
def snapEmpty : Snap := fun _ => none

/-- Specification of what one `unpack` call leaves readable at `key`:
if `key` extends `path` and the residue is stored in the node, that
record (freshly written, overriding the accumulator); otherwise whatever
the accumulator already had. -/
def unpackSem (n : Nest) (acc : FlatC) (path key : List String) :
    Option FileState :=
  match pathRest path key with
  | some s =>
      match Nest.find n s with
      | some v => some v
      | none => lookupA acc key
  | none => lookupA acc key

/-- Specification of the folder half of `unpack`, analogous to
`unpackSem` but reading through a `'fold'` map. -/
def unpackFSem (fo : FoldList) (acc : FlatC) (path key : List String) :
    Option FileState :=
  match pathRest path key with
  | some s =>
      match FoldList.findF fo s with
      | some v => some v
      | none => lookupA acc key
  | none => lookupA acc key

/-- Specification of the file half of `unpack`: a single-segment residue
looked up in the file map, everything else left to the accumulator. -/
def foldFilesSem (fi : List (String × FileState)) (acc : FlatC)
    (path key : List String) : Option FileState :=
  match pathRest path key with
  | some [name] =>
      match lookupA fi name with
      | some v => some v
      | none => lookupA acc key
  | _ => lookupA acc key

/-! ### Claim theorems -/

/-- C1: for a path changed on both sides with the recovery flag false, the
code emits NO action at all — the `LOGIC` dispatch loop is the for-else of
the recovery loop, nested under `if recover:`, so it never runs when
recovery is off.  The table itself is total over all 16 class pairs and
its `(Modified, Unchanged)` entry is Push, so the claimed behaviour would
have emitted Push; nothing is emitted. -/
theorem c1_decision_table_bypassed (lclTmp rmtTmp : FileState)
    (lclDif rmtDif : Nat) :
    interKeyActs false lclTmp rmtTmp lclDif rmtDif = [] ∧
    (∀ l r : Fin 4, (logicAt l.val r.val).isSome = true) ∧
    logicAt 1 0 = some Act.Push :=
  ⟨rfl, by decide, rfl⟩

/-- C2: in recovery mode a tied pair (equal current sizes, here both
`(10, 100)`, classes Modified/Modified) does NOT end with no action: after
the raw-comparison loop finishes, its for-else clause dispatches the
decision table, emitting Conflict. -/
theorem c2_recovery_tie_dispatches_table :
    interKeyActs true ⟨10, 100⟩ ⟨10, 100⟩ 1 1 = [Act.Conflict] := by
  decide

/-- C3 counterexample: a non-dry pass with zero dry-pass jobs, auto-confirm
off and recovery off does not run the live pass, though the claim says a
zero-job dry pass suffices. -/
theorem c3_zero_jobs_without_recovery_skips_live :
    livePassRuns false false 0 false false = false := rfl

/-- C3 amended: for a pass the live pass runs iff the dry-run flag is off
and, when the dry pass counted zero jobs, the subtree is in recovery mode,
while with a nonzero count auto-confirm or an affirmative answer is
needed. -/
theorem c3_live_pass_gate (dry auto : Bool) (total : Nat)
    (answer recover : Bool) :
    livePassRuns dry auto total answer recover = true ↔
      (dry = false ∧
        (if total = 0 then recover = true
          else (auto = true ∨ answer = true))) := by
  cases dry <;> cases auto <;> cases answer <;> cases recover <;>
    by_cases h : total = 0 <;>
      simp [livePassRuns, h]

/-- C4 counterexample: on a first run the two sides' baselines are their
own fresh listings, so with local listing `{a: (10,100)}` and an empty
remote listing the two baselines disagree at `a` — they are not the same
single snapshot. -/
theorem c4_first_sync_baselines_differ :
    (baselines true snapEmpty snapA snapEmpty).1 "a" = some ⟨10, 100⟩ ∧
    (baselines true snapEmpty snapA snapEmpty).2 "a" = none := by
  refine ⟨?_, rfl⟩
  simp [baselines, snapA]

/-- C4 amended: outside first-sync mode both sides' change classes are
computed against the same baseline snapshot (the unpacked persisted
state); in first-sync mode each side's baseline is its own current
listing, under which every present path classifies as Unchanged (0). -/
theorem c4_baseline_sharing (old lclTmp rmtTmp : Snap) (k : String) :
    (baselines false old lclTmp rmtTmp).1 = (baselines false old lclTmp rmtTmp).2 ∧
    build_dif (baselines false old lclTmp rmtTmp).1 lclTmp k = build_dif old lclTmp k ∧
    build_dif (baselines false old lclTmp rmtTmp).2 rmtTmp k = build_dif old rmtTmp k ∧
    (baselines true old lclTmp rmtTmp).1 = lclTmp ∧
    (baselines true old lclTmp rmtTmp).2 = rmtTmp ∧
    build_dif (baselines true old lclTmp rmtTmp).1 lclTmp k =
      ((lclTmp k).map fun _ => 0) := by
  refine ⟨rfl, rfl, rfl, rfl, rfl, ?_⟩
  cases h : lclTmp k <;> simp [build_dif, baselines, h]

/-- C5: the classifier assigns Deleted (2) exactly on baseline-only keys,
Created (3) exactly on current-only keys; on shared keys Modified (1) iff
the size differs or the current time is strictly newer, else Unchanged
(0); a key gets a class iff it is in either listing, and the class is
unique and at most 3. -/
theorem c5_classify (old tmp : Snap) (k : String) :
    (build_dif old tmp k = some 2 ↔ (old k).isSome = true ∧ tmp k = none) ∧
    (build_dif old tmp k = some 3 ↔ old k = none ∧ (tmp k).isSome = true) ∧
    (∀ o t, old k = some o → tmp k = some t →
      ((build_dif old tmp k = some 1 ↔
          (t.bytesize ≠ o.bytesize ∨ o.datetime < t.datetime)) ∧
        (build_dif old tmp k = some 0 ↔
          (t.bytesize = o.bytesize ∧ t.datetime ≤ o.datetime)))) ∧
    ((build_dif old tmp k).isSome = true ↔
      ((old k).isSome = true ∨ (tmp k).isSome = true)) ∧
    (∀ c, build_dif old tmp k = some c → c ≤ 3) := by
  cases ho : old k with
  | none =>
    cases ht : tmp k with
    | none => simp [build_dif, ho, ht]
    | some t => simp [build_dif, ho, ht]
  | some o =>
    cases ht : tmp k with
    | none => simp [build_dif, ho, ht]
    | some t =>
      have hb : build_dif old tmp k =
          (if t.bytesize ≠ o.bytesize then some 1
            else if o.datetime < t.datetime then some 1 else some 0) := by
        simp [build_dif, ho, ht]
      rw [hb]
      refine ⟨?_, ?_, ?_, ?_, ?_⟩
      · split_ifs <;> simp [ht]
      · split_ifs <;> simp [ho]
      · intro o' t' ho' ht'
        simp only [Option.some.injEq] at ho' ht'
        subst ho'
        subst ht'
        refine ⟨?_, ?_⟩ <;>
          · by_cases hs : t.bytesize = o.bytesize <;>
              by_cases hd : o.datetime < t.datetime <;>
                simp [hs, hd] <;> omega
      · split_ifs <;> simp
      · intro c
        split_ifs <;> simp <;> omega

/-- C5 witness: instantiating the shared-key case of `c5_classify` at the
concrete listings `{a: (10,100)}` (baseline) and `{a: (20,150)}`
(current). -/
theorem c5_classify_witness :
    build_dif snapA snapB "a" = some 1 ↔
      ((20 : Nat) ≠ 10 ∨ (100 : Int) < 150) :=
  ((c5_classify snapA snapB "a").2.2.1 ⟨10, 100⟩ ⟨20, 150⟩
    (by simp [snapA]) (by simp [snapB])).1

/-- C6 counterexample: with identical baseline and current listing
`{a: (10,100)}` the key `a` is classified Unchanged (0) yet is a member of
the side's diff set `s_dif`, so paths classified Unchanged ARE retained. -/
theorem c6_unchanged_kept_in_diff_set :
    build_dif snapA snapA "a" = some 0 ∧ s_dif snapA snapA "a" = true := by
  constructor
  · simp [build_dif, snapA]
  · simp [s_dif, build_dif, snapA]

/-- C6 amended: a side's diff set is the full key set of its
classification map, i.e. the union of the baseline and current key sets,
with Unchanged paths included. -/
theorem c6_diff_set_is_union (old tmp : Snap) (k : String) :
    s_dif old tmp k = ((old k).isSome || (tmp k).isSome) := by
  cases ho : old k <;> cases ht : tmp k <;>
    simp only [s_dif, build_dif, ho, ht] <;>
      first
        | rfl
        | (split_ifs <;> rfl)

/-- C7: the one-sided branches never emit any delete: a local-only path
yields at most Push, a remote-only path at most Pull, and a path whose
class is Deleted (2) yields no action at all on either side. -/
theorem c7_one_sided_never_deletes (ci : Bool) (dif : Nat)
    (low : String → Bool) (key : String) :
    oneSidedPush ci dif low key ≠ some Act.DeleteRemote ∧
    oneSidedPush ci dif low key ≠ some Act.DeleteLocal ∧
    oneSidedPull ci dif low key ≠ some Act.DeleteLocal ∧
    oneSidedPull ci dif low key ≠ some Act.DeleteRemote ∧
    oneSidedPush ci 2 low key = none ∧
    oneSidedPull ci 2 low key = none := by
  unfold oneSidedPush oneSidedPull
  refine ⟨?_, ?_, ?_, ?_, by simp, by simp⟩ <;>
    split_ifs <;> simp

/-- C10: the dry-run report `print('Found:', total_jobs + 'jobs')` raises
TypeError for every integer job total, because Python refuses int + str;
so the dry-run reporting branch never completes normally. -/
theorem c10_dry_report_raises (total_jobs : Int) :
    dryReport total_jobs = Except.error "TypeError" := rfl

/-! ### Association-list and tree lemmas for the round-trip claim -/

theorem lookupA_updA {α β : Type} [DecidableEq α] (l : List (α × β))
    (k : α) (v : β) (q : α) :
    lookupA (updA l k v) q = if k = q then some v else lookupA l q := by
  induction l with
  | nil => simp [updA, lookupA]
  | cons hd tl ih =>
    obtain ⟨n, w⟩ := hd
    by_cases hn : n = k
    · subst hn
      simp only [updA, if_pos rfl, lookupA]
      split_ifs <;> rfl
    · simp only [updA, if_neg hn, lookupA, ih]
      by_cases hq : n = q
      · have : k ≠ q := fun h => hn (h ▸ hq.symm ▸ rfl)
        simp [hq, this]
      · simp [hq]

theorem lookupA_eq_none {α β : Type} [DecidableEq α] (l : List (α × β))
    (k : α) (h : k ∉ l.map Prod.fst) : lookupA l k = none := by
  induction l with
  | nil => rfl
  | cons hd tl ih =>
    obtain ⟨n, w⟩ := hd
    simp only [List.map_cons, List.mem_cons] at h
    push_neg at h
    have hn : n ≠ k := fun hh => h.1 hh.symm
    simp [lookupA, hn, ih h.2]

theorem map_fst_updA {α β : Type} [DecidableEq α] (l : List (α × β))
    (k : α) (v : β) :
    (updA l k v).map Prod.fst =
      if k ∈ l.map Prod.fst then l.map Prod.fst
      else l.map Prod.fst ++ [k] := by
  induction l with
  | nil => simp [updA]
  | cons hd tl ih =>
    obtain ⟨n, w⟩ := hd
    by_cases hn : n = k
    · subst hn
      simp [updA]
    · have hk : (k = n) = False := eq_false (fun h => hn h.symm)
      simp only [updA, if_neg hn, List.map_cons, List.mem_cons, hk,
        false_or, ih]
      split_ifs <;> simp

theorem nodup_keys_updA {α β : Type} [DecidableEq α] (l : List (α × β))
    (k : α) (v : β) (h : (l.map Prod.fst).Nodup) :
    ((updA l k v).map Prod.fst).Nodup := by
  rw [map_fst_updA]
  split_ifs with hk
  · exact h
  · simp [List.nodup_append, h, hk]

theorem foldLookup_update (fo : FoldList) (k : String) (v : Nest)
    (q : String) :
    FoldList.lookup (FoldList.update fo k v) q =
      if k = q then some v else FoldList.lookup fo q := by
  match fo with
  | FoldList.nil => simp [FoldList.update, FoldList.lookup]
  | FoldList.cons n c r =>
    by_cases hn : n = k
    · subst hn
      simp only [FoldList.update, if_pos rfl, FoldList.lookup]
      split_ifs <;> rfl
    · simp only [FoldList.update, if_neg hn, FoldList.lookup,
        foldLookup_update r k v q]
      by_cases hq : n = q
      · have : k ≠ q := fun h => hn (h ▸ hq.symm ▸ rfl)
        simp [hq, this]
      · simp [hq]

theorem foldLookup_eq_none (fo : FoldList) (k : String)
    (h : k ∉ FoldList.names fo) : FoldList.lookup fo k = none := by
  match fo with
  | FoldList.nil => rfl
  | FoldList.cons n c r =>
    simp only [FoldList.names, List.mem_cons] at h
    push_neg at h
    have hn : n ≠ k := fun hh => h.1 hh.symm
    simp [FoldList.lookup, hn, foldLookup_eq_none r k h.2]

theorem names_update (fo : FoldList) (k : String) (v : Nest) :
    FoldList.names (FoldList.update fo k v) =
      if k ∈ FoldList.names fo then FoldList.names fo
      else FoldList.names fo ++ [k] := by
  match fo with
  | FoldList.nil => simp [FoldList.update, FoldList.names]
  | FoldList.cons n c r =>
    by_cases hn : n = k
    · subst hn
      simp [FoldList.update, FoldList.names]
    · have hk : (k = n) = False := eq_false (fun h => hn h.symm)
      simp only [FoldList.update, if_neg hn, FoldList.names,
        List.mem_cons, hk, false_or, names_update r k v]
      split_ifs <;> simp

theorem allWF_lookup (fo : FoldList) (h : FoldList.allWF fo) (k : String)
    (c : Nest) (hc : FoldList.lookup fo k = some c) : Nest.WF c := by
  match fo with
  | FoldList.nil => simp [FoldList.lookup] at hc
  | FoldList.cons n ch r =>
    simp only [FoldList.allWF] at h
    by_cases hn : n = k
    · simp only [FoldList.lookup, if_pos hn] at hc
      exact (Option.some.inj hc) ▸ h.1
    · simp only [FoldList.lookup, if_neg hn] at hc
      exact allWF_lookup r h.2 k c hc

theorem allWF_update (fo : FoldList) (h : FoldList.allWF fo) (k : String)
    (v : Nest) (hv : Nest.WF v) :
    FoldList.allWF (FoldList.update fo k v) := by
  match fo with
  | FoldList.nil =>
    simp only [FoldList.update, FoldList.allWF]
    exact ⟨hv, trivial⟩
  | FoldList.cons n c r =>
    simp only [FoldList.allWF] at h
    by_cases hn : n = k
    · simp only [FoldList.update, if_pos hn, FoldList.allWF]
      exact ⟨hv, h.2⟩
    · simp only [FoldList.update, if_neg hn, FoldList.allWF]
      exact ⟨h.1, allWF_update r h.2 k v hv⟩

theorem find_emptyNest (key : List String) :
    Nest.find emptyNest key = none := by
  match key with
  | [] => rfl
  | [a] => rfl
  | a :: b :: t => rfl

theorem WF_emptyNest : Nest.WF emptyNest := by
  simp [Nest.WF, emptyNest, FoldList.names, FoldList.allWF]

theorem find_insert (n : Nest) (k : List String) (v : FileState)
    (hk : k ≠ []) (q : List String) :
    Nest.find (Nest.insert n k v) q =
      if q = k then some v else Nest.find n q := by
  match n, k with
  | Nest.mk fo fi, [] => exact absurd rfl hk
  | Nest.mk fo fi, [name] =>
    match q with
    | [] => simp [Nest.insert, Nest.find]
    | [a] =>
      simp only [Nest.insert, Nest.find, lookupA_updA]
      by_cases ha : name = a
      · simp [ha]
      · have ha2 : ¬(a = name) := fun h => ha h.symm
        simp [ha, ha2]
    | a :: c :: t => simp [Nest.insert, Nest.find]
  | Nest.mk fo fi, name :: b :: rest =>
    match q with
    | [] => simp [Nest.insert, Nest.find]
    | [a] => simp [Nest.insert, Nest.find]
    | a :: c :: t =>
      by_cases ha : name = a
      · subst ha
        have hstep :
            Nest.find (Nest.insert (Nest.mk fo fi) (name :: b :: rest) v)
                (name :: c :: t) =
              Nest.find
                (Nest.insert ((FoldList.lookup fo name).getD emptyNest)
                  (b :: rest) v) (c :: t) := by
          simp [Nest.insert, Nest.find, foldLookup_update]
        rw [hstep, find_insert _ (b :: rest) v (by simp) (c :: t)]
        by_cases he : (c :: t) = (b :: rest)
        · rw [if_pos he, if_pos (by rw [he])]
        · have hne : (name :: c :: t) ≠ (name :: b :: rest) := by
            intro hh
            injection hh with h1 h2
            exact he h2
          rw [if_neg he, if_neg hne]
          cases hl : FoldList.lookup fo name with
          | some ch => simp [hl, Nest.find]
          | none => simp [hl, Nest.find, find_emptyNest]
      · have hne : (a :: c :: t) ≠ (name :: b :: rest) := by
          intro hh
          injection hh with h1 h2
          exact ha h1.symm
        rw [if_neg hne]
        simp [Nest.insert, Nest.find, foldLookup_update, ha]

theorem WF_insert (n : Nest) (k : List String) (v : FileState)
    (h : Nest.WF n) : Nest.WF (Nest.insert n k v) := by
  match n, k with
  | Nest.mk fo fi, [] => exact h
  | Nest.mk fo fi, [name] =>
    simp only [Nest.insert, Nest.WF] at h ⊢
    exact ⟨nodup_keys_updA fi name v h.1, h.2.1, h.2.2⟩
  | Nest.mk fo fi, name :: b :: rest =>
    simp only [Nest.insert, Nest.WF] at h ⊢
    have hchild : Nest.WF ((FoldList.lookup fo name).getD emptyNest) := by
      cases hl : FoldList.lookup fo name with
      | some ch => simpa using allWF_lookup fo h.2.2 name ch hl
      | none => simpa using WF_emptyNest
    refine ⟨h.1, ?_,
      allWF_update fo h.2.2 name _ (WF_insert _ (b :: rest) v hchild)⟩
    rw [names_update]
    split_ifs with hm
    · exact h.2.1
    · simp [List.nodup_append, h.2.1, hm]

theorem WF_foldl_insert (l : FlatC) (n : Nest) (h : Nest.WF n) :
    Nest.WF (List.foldl (fun n kv => Nest.insert n kv.1 kv.2) n l) := by
  induction l generalizing n with
  | nil => exact h
  | cons hd tl ih => exact ih _ (WF_insert _ _ _ h)

theorem WF_pack (l : FlatC) : Nest.WF (pack l) :=
  WF_foldl_insert l emptyNest WF_emptyNest

theorem pathRest_some_iff (p k s : List String) :
    pathRest p k = some s ↔ k = p ++ s := by
  induction p generalizing k with
  | nil => simp [pathRest]
  | cons a p' ih =>
    match k with
    | [] => simp [pathRest]
    | b :: k' =>
      by_cases hab : a = b
      · subst hab
        simp [pathRest, ih]
      · rw [pathRest, if_neg hab]
        constructor
        · intro hh
          exact Option.noConfusion hh
        · intro hh
          injection hh with h1 h2
          exact absurd h1.symm hab

theorem pathRest_snoc (path key : List String) (c : String) :
    pathRest (path ++ [c]) key =
      (match pathRest path key with
        | some (a :: s) => if c = a then some s else none
        | _ => none) := by
  induction path generalizing key with
  | nil =>
    match key with
    | [] => rfl
    | b :: k' => rfl
  | cons p ps ih =>
    match key with
    | [] => rfl
    | b :: k' =>
      by_cases hpb : p = b
      · subst hpb
        simp [pathRest, ih]
      · simp [pathRest, hpb]

theorem findF_nilF (s : List String) :
    FoldList.findF FoldList.nil s = none := by
  match s with
  | [] => rfl
  | c :: s' => simp [FoldList.findF, FoldList.lookup]

theorem findF_single (fo : FoldList) (c : String) :
    FoldList.findF fo [c] = none := by
  cases hl : FoldList.lookup fo c <;> simp [FoldList.findF, hl, Nest.find]

theorem findF_cons (c : String) (ch : Nest) (rest : FoldList) (a : String)
    (s : List String) :
    FoldList.findF (FoldList.cons c ch rest) (a :: s) =
      if c = a then Nest.find ch s else FoldList.findF rest (a :: s) := by
  simp only [FoldList.findF, FoldList.lookup]
  split_ifs with h <;> rfl

theorem findF_not_mem (fo : FoldList) (a : String) (s : List String)
    (h : a ∉ FoldList.names fo) : FoldList.findF fo (a :: s) = none := by
  simp [FoldList.findF, foldLookup_eq_none fo a h]

theorem find_mk_cons₂ (fo : FoldList) (fi : List (String × FileState))
    (a b : String) (t : List String) :
    Nest.find (Nest.mk fo fi) (a :: b :: t) =
      FoldList.findF fo (a :: b :: t) := rfl

theorem lookupA_foldFiles (fi : List (String × FileState))
    (hnd : (fi.map Prod.fst).Nodup) (acc : FlatC) (path key : List String) :
    lookupA (foldFiles fi acc path) key = foldFilesSem fi acc path key := by
  induction fi generalizing acc with
  | nil =>
    show lookupA acc key = foldFilesSem [] acc path key
    cases hr : pathRest path key with
    | none => simp [foldFilesSem, hr]
    | some s =>
      match s with
      | [] => simp [foldFilesSem, hr]
      | [name] => simp [foldFilesSem, hr, lookupA]
      | a :: b :: t => simp [foldFilesSem, hr]
  | cons hd tl ih =>
    obtain ⟨nm, w⟩ := hd
    simp only [List.map_cons, List.nodup_cons] at hnd
    have hstep : foldFiles ((nm, w) :: tl) acc path =
        foldFiles tl (updA acc (path ++ [nm]) w) path := rfl
    rw [hstep, ih hnd.2]
    cases hr : pathRest path key with
    | none =>
      have hkey : (path ++ [nm]) ≠ key := by
        intro hh
        have h2 := (pathRest_some_iff path key [nm]).2 hh.symm
        rw [hr] at h2
        exact Option.noConfusion h2
      simp [foldFilesSem, hr, lookupA_updA, hkey]
    | some s =>
      match s with
      | [] =>
        have hk : key = path := by
          simpa using (pathRest_some_iff path key []).1 hr
        have hkey : (path ++ [nm]) ≠ key := by
          rw [hk]
          intro hh
          have h2 := congrArg List.length hh
          simp at h2
        simp [foldFilesSem, hr, lookupA_updA, hkey]
      | [name] =>
        have hk : key = path ++ [name] := (pathRest_some_iff path key [name]).1 hr
        by_cases hnm : nm = name
        · subst hnm
          have h0 : lookupA tl nm = none := lookupA_eq_none tl nm hnd.1
          have hupd : lookupA (updA acc (path ++ [nm]) w) key = some w := by
            rw [hk, lookupA_updA, if_pos rfl]
          simp [foldFilesSem, hr, h0, lookupA, hupd]
        · have hkey : (path ++ [nm]) ≠ key := by
            rw [hk]
            intro hh
            have h2 := List.append_cancel_left hh
            injection h2 with h3 h4
            exact hnm h3
          simp only [foldFilesSem, hr, lookupA]
          rw [if_neg hnm]
          cases h1 : lookupA tl name with
          | some v => simp [h1]
          | none => simp [h1, lookupA_updA, hkey]
      | a :: b :: t =>
        have hk : key = path ++ (a :: b :: t) :=
          (pathRest_some_iff path key (a :: b :: t)).1 hr
        have hkey : (path ++ [nm]) ≠ key := by
          rw [hk]
          intro hh
          have h2 := List.append_cancel_left hh
          injection h2 with h3 h4
          exact List.noConfusion h4
        simp [foldFilesSem, hr, lookupA_updA, hkey]

theorem findF_nilChain (fo : FoldList) : FoldList.findF fo [] = none := rfl

theorem sem_combine (fo : FoldList) (fi : List (String × FileState))
    (hnd : (fi.map Prod.fst).Nodup) (acc : FlatC) (path key : List String) :
    unpackFSem fo (foldFiles fi acc path) path key =
      unpackSem (Nest.mk fo fi) acc path key := by
  cases hr : pathRest path key with
  | none =>
    simp only [unpackFSem, unpackSem, hr]
    rw [lookupA_foldFiles fi hnd acc path key]
    simp [foldFilesSem, hr]
  | some s =>
    match s with
    | [] =>
      simp only [unpackFSem, unpackSem, hr, findF_nilChain, Nest.find]
      rw [lookupA_foldFiles fi hnd acc path key]
      simp [foldFilesSem, hr]
    | [name] =>
      simp only [unpackFSem, unpackSem, hr, findF_single, Nest.find]
      rw [lookupA_foldFiles fi hnd acc path key]
      simp only [foldFilesSem, hr]
    | a :: b :: t =>
      simp only [unpackFSem, unpackSem, hr, find_mk_cons₂]
      cases hf : FoldList.findF fo (a :: b :: t) with
      | some v => simp [hf]
      | none =>
        simp only [hf]
        rw [lookupA_foldFiles fi hnd acc path key]
        simp [foldFilesSem, hr]

mutual

theorem unpack_lookup (n : Nest) (h : Nest.WF n) (acc : FlatC)
    (path key : List String) :
    lookupA (Nest.unpack n acc path) key = unpackSem n acc path key := by
  match n with
  | Nest.mk fo fi =>
    simp only [Nest.unpack]
    simp only [Nest.WF] at h
    rw [unpackF_lookup fo h.2.1 h.2.2 (foldFiles fi acc path) path key]
    exact sem_combine fo fi h.1 acc path key

theorem unpackF_lookup (fo : FoldList) (hnd : (FoldList.names fo).Nodup)
    (hwf : FoldList.allWF fo) (acc : FlatC) (path key : List String) :
    lookupA (FoldList.unpackF fo acc path) key =
      unpackFSem fo acc path key := by
  match fo with
  | FoldList.nil =>
    show lookupA acc key = unpackFSem FoldList.nil acc path key
    cases hr : pathRest path key with
    | none => simp [unpackFSem, hr]
    | some s => simp [unpackFSem, hr, findF_nilF]
  | FoldList.cons c ch rest =>
    simp only [FoldList.names, List.nodup_cons] at hnd
    simp only [FoldList.allWF] at hwf
    have hstep : FoldList.unpackF (FoldList.cons c ch rest) acc path =
        FoldList.unpackF rest (Nest.unpack ch acc (path ++ [c])) path := rfl
    rw [hstep, unpackF_lookup rest hnd.2 hwf.2 _ path key]
    have hacc : lookupA (Nest.unpack ch acc (path ++ [c])) key =
        unpackSem ch acc (path ++ [c]) key :=
      unpack_lookup ch hwf.1 acc (path ++ [c]) key
    cases hr : pathRest path key with
    | none =>
      have hr2 : pathRest (path ++ [c]) key = none := by
        rw [pathRest_snoc, hr]
      simp only [unpackFSem, hr, hacc, unpackSem, hr2]
    | some s =>
      match s with
      | [] =>
        have hr2 : pathRest (path ++ [c]) key = none := by
          rw [pathRest_snoc, hr]
        simp only [unpackFSem, hr, findF_nilChain, hacc, unpackSem, hr2]
      | a :: s' =>
        by_cases hac : c = a
        · subst hac
          have hrest : FoldList.findF rest (c :: s') = none :=
            findF_not_mem rest c s' hnd.1
          have hr2 : pathRest (path ++ [c]) key = some s' := by
            rw [pathRest_snoc, hr]
            simp
          simp only [unpackFSem, hr, hrest, hacc, unpackSem, hr2,
            findF_cons, if_pos rfl]
          simp
        · have hr2 : pathRest (path ++ [c]) key = none := by
            rw [pathRest_snoc, hr]
            simp [hac]
          simp only [unpackFSem, hr, findF_cons, if_neg hac, hacc,
            unpackSem, hr2]

end

theorem getBranch_mergeAt (t : Nest) (p : List String) (new : Nest)
    (hp : p ≠ []) :
    Nest.getBranch (Nest.mergeAt t p new) p = some new := by
  match t, p with
  | Nest.mk fo fi, [] => exact absurd rfl hp
  | Nest.mk fo fi, [c] =>
    simp [Nest.mergeAt, Nest.getBranch, foldLookup_update]
  | Nest.mk fo fi, c :: b :: rest =>
    have ih := getBranch_mergeAt ((FoldList.lookup fo c).getD emptyNest)
      (b :: rest) new (by simp)
    simp [Nest.mergeAt, Nest.getBranch, foldLookup_update, ih]

theorem find_foldl_insert (l : FlatC) (hk : ∀ kv ∈ l, kv.1 ≠ [])
    (hnd : (l.map Prod.fst).Nodup) (n : Nest) (key : List String) :
    Nest.find (List.foldl (fun n kv => Nest.insert n kv.1 kv.2) n l) key =
      (match lookupA l key with
        | some v => some v
        | none => Nest.find n key) := by
  induction l generalizing n with
  | nil => simp [lookupA]
  | cons hd tl ih =>
    obtain ⟨k0, v0⟩ := hd
    simp only [List.map_cons, List.nodup_cons] at hnd
    have hk0 : k0 ≠ [] := hk (k0, v0) (by simp)
    have hktl : ∀ kv ∈ tl, kv.1 ≠ [] := fun kv hkv => hk kv (by simp [hkv])
    rw [List.foldl_cons, ih hktl hnd.2 (Nest.insert n k0 v0)]
    by_cases hkey : key = k0
    · subst hkey
      have h0 : lookupA tl key = none := lookupA_eq_none tl key hnd.1
      simp [h0, lookupA, find_insert n key v0 hk0 key]
    · have hk2 : ¬(k0 = key) := fun h => hkey h.symm
      have hlk : lookupA ((k0, v0) :: tl) key = lookupA tl key := by
        simp [lookupA, hk2]
      rw [hlk]
      cases h1 : lookupA tl key with
      | some v => simp [h1]
      | none => simp [h1, find_insert n k0 v0 hk0 key, hkey]

/-- C8: packing a snapshot with `pack`, merging the node into any baseline
tree at any (nonempty) path with `merge`, reading it back with
`get_branch` at that path, and flattening with `unpack`, yields exactly
the original snapshot: `get_branch` succeeds and every key looks up to
its original record (and absent keys stay absent).  Keys are nonempty
segment chains and the snapshot's keys are unique, as `lsl` guarantees. -/
theorem c8_pack_merge_unpack (t : Nest) (p : List String) (l : FlatC)
    (hp : p ≠ []) (hk : ∀ kv ∈ l, kv.1 ≠ [])
    (hnd : (l.map Prod.fst).Nodup) (key : List String) :
    ((Nest.mergeAt t p (pack l)).getBranch p).map
        (fun n => lookupA (Nest.unpack n [] []) key) =
      some (lookupA l key) := by
  rw [getBranch_mergeAt t p (pack l) hp]
  simp only [Option.map_some']
  congr 1
  rw [unpack_lookup (pack l) (WF_pack l) [] [] key]
  simp only [unpackSem, pathRest, pack]
  rw [find_foldl_insert l hk hnd emptyNest key]
  cases hl : lookupA l key with
  | some v => simp [hl]
  | none => simp [hl, find_emptyNest, lookupA]

/-- C8 witness: the round trip at the concrete tree `empty()`, path
`sub`, snapshot `{d/f: (3, 4)}`, read back at key `d/f`. -/
theorem c8_pack_merge_unpack_witness :
    ((Nest.mergeAt emptyNest ["sub"]
          (pack [(["d", "f"], ⟨3, 4⟩)])).getBranch ["sub"]).map
        (fun n => lookupA (Nest.unpack n [] []) ["d", "f"]) =
      some (some ⟨3, 4⟩) := by
  have h := c8_pack_merge_unpack emptyNest ["sub"] [(["d", "f"], ⟨3, 4⟩)]
    (by simp) (by simp) (by simp) ["d", "f"]
  simpa [lookupA] using h

theorem getMinChain_aux (ch : List String) (hch : ch ≠ []) (n : Nest)
    (acc : List String) :
    ∃ j, j + 1 ≤ ch.length ∧
      getMinChain n ch acc = acc ++ (ch.drop 1).take j ∧
      presentChain n (ch.take j) = true := by
  match ch with
  | [] => exact absurd rfl hch
  | [c] =>
    refine ⟨0, by simp, ?_, by simp [presentChain]⟩
    simp [getMinChain]
  | c :: b :: rest =>
    match n with
    | Nest.mk fo fi =>
      cases hl : FoldList.lookup fo c with
      | none =>
        refine ⟨0, by simp, ?_, by simp [presentChain]⟩
        simp [getMinChain, hl]
      | some child =>
        obtain ⟨j, hj1, hj2, hj3⟩ :=
          getMinChain_aux (b :: rest) (by simp) child (acc ++ [b])
        refine ⟨j + 1, ?_, ?_, ?_⟩
        · simp only [List.length_cons] at hj1 ⊢
          omega
        · simp only [getMinChain, hl]
          rw [hj2]
          simp [List.take_succ_cons]
        · simp [presentChain, hl, List.take_succ_cons, hj3]

/-- C9 counterexample: on the empty tree and the path `a/b`, `get_min`
returns the prefix `a` although `a` is not present as a folder node in
the tree (the first component is seeded into the accumulator
unconditionally), so the returned prefix is longer than any
actually-present folder chain. -/
theorem c9_counterexample :
    get_min emptyNest ["a", "b"] = ["a"] ∧
    presentChain emptyNest ["a"] = false := by
  constructor
  · rfl
  · rfl

/-- C9 amended: `get_min` returns a nonempty prefix `chain.take (j+1)` of
the path all of whose components strictly before the last exist as a
folder chain from the root; equivalently, the result extends an
actually-present folder chain by at most one final component (and its
first component need not exist at all). -/
theorem c9_min_prefix (t : Nest) (chain : List String) (hch : chain ≠ []) :
    ∃ j, j + 1 ≤ chain.length ∧
      get_min t chain = chain.take (j + 1) ∧
      presentChain t ((get_min t chain).dropLast) = true := by
  obtain ⟨j, hj1, hj2, hj3⟩ := getMinChain_aux chain hch t (chain.take 1)
  have hres : get_min t chain = chain.take (j + 1) := by
    rw [get_min, hj2, show j + 1 = 1 + j from by omega, List.take_add]
  refine ⟨j, hj1, hres, ?_⟩
  rw [hres]
  have hdl : (chain.take (j + 1)).dropLast = chain.take j := by
    rw [List.dropLast_eq_take, List.length_take]
    have h1 : min (j + 1) chain.length - 1 = j := by omega
    rw [h1, List.take_take]
    have h2 : min j (j + 1) = j := by omega
    rw [h2]
  rw [hdl]
  exact hj3

/-- C9 witness: instantiating `c9_min_prefix` on the empty tree and the
path `a/b`. -/
theorem c9_min_prefix_witness :
    ∃ j, j + 1 ≤ (["a", "b"] : List String).length ∧
      get_min emptyNest ["a", "b"] = (["a", "b"] : List String).take (j + 1) ∧
      presentChain emptyNest ((get_min emptyNest ["a", "b"]).dropLast) = true :=
  c9_min_prefix emptyNest ["a", "b"] (by simp)
